import Mathlib

/-!
Verification of the sss object-store driver: the multipart reconciliation
engine (`Resume` / `OrderParts`), the chunked writer (`Write` / `flush` /
`Commit` / `Cancel` / `Close`), and the flat-namespace directory walker
(`doWalk` / `directoryDiff`).

Strings are modelled as `List Char` (`Str`), mirroring Go's byte-sequence
strings for the ASCII paths at play.  Machine integers (`int`, `int32`,
`int64`) are modelled as `Int`: no code path here depends on wrap-around.

Loops whose termination is not structural are written with an explicit fuel
argument, with enough fuel supplied at each call site that the model agrees
with the Go code on every input where the Go loop terminates; this keeps
every definition computable by the kernel.
-/

/-- Go strings, modelled as lists of characters. -/
abbrev Str := List Char

/-! ### Go standard library `path` package

`directoryDiff` calls `path.Dir`, which is `path.Clean` applied to the part
of the path up to and including the final slash.  `Clean` is translated from
Go's `path/path.go`: the lazybuf is modelled as the list `out` of characters
written so far (`out.w` is `out.length`). -/

/-- The inner backtracking loop of `Clean`'s `..` case: starting from write
index `w`, step left while above `dotdot` and not on a `'/'`.  Returns the
new write index.  (At `w = 0` the Go condition `out.w > dotdot` is already
false, so returning `0` matches.) -/
def cleanBacktrack (out : Str) (dotdot : Nat) : Nat → Nat
  | 0 => 0
  | w + 1 =>
    if dotdot < w + 1 ∧ out[w + 1]? ≠ some '/' then cleanBacktrack out dotdot w else w + 1

/-- The main scanning loop of Go `path.Clean`, over the remaining characters
`cs`.  `out` is the output buffer written so far, `dotdot` the limit below
which `..` may not backtrack.  Every step consumes at least one character,
so fuel `cs.length + 1` runs the loop to completion. -/
def cleanLoop (rooted : Bool) : Nat → Str → Nat → Str → Str
  | _, out, _, [] => out
  | 0, out, _, _ => out
  | fuel + 1, out, dotdot, c :: rest =>
    if c == '/' then
      -- empty path element
      cleanLoop rooted fuel out dotdot rest
    else if c == '.' && (rest.isEmpty || rest.head? == some '/') then
      -- . element
      cleanLoop rooted fuel out dotdot rest
    else if c == '.' && rest.head? == some '.' &&
        (rest.tail.isEmpty || rest.tail.head? == some '/') then
      -- .. element: remove to last /
      if dotdot < out.length then
        cleanLoop rooted fuel (out.take (cleanBacktrack out dotdot (out.length - 1)))
          dotdot rest.tail
      else if !rooted then
        cleanLoop rooted fuel
          ((if out.length != 0 then out ++ ['/'] else out) ++ ['.', '.'])
          ((if out.length != 0 then out ++ ['/'] else out) ++ ['.', '.']).length rest.tail
      else
        cleanLoop rooted fuel out dotdot rest.tail
    else
      -- real path element: add slash if needed, then copy the element
      cleanLoop rooted fuel
        ((if rooted && out.length != 1 || !rooted && out.length != 0 then out ++ ['/'] else out)
          ++ (c :: rest).takeWhile (· != '/'))
        dotdot ((c :: rest).dropWhile (· != '/'))

/-- Go `path.Clean`. -/
def goClean (p : Str) : Str :=
  if p.isEmpty then ['.']
  else
    let rooted : Bool := p.head? == some '/'
    let out :=
      if rooted then cleanLoop rooted (p.length + 1) ['/'] 1 p.tail
      else cleanLoop rooted (p.length + 1) [] 0 p
    if out.isEmpty then ['.'] else out

/-- The `dir` half of Go `path.Split`: everything up to and including the
final slash (empty when there is no slash). -/
def goSplitDir (p : Str) : Str :=
  match p.reverse.indexOf? '/' with
  | none => []
  | some i => p.take (p.length - i)

/-- Go `path.Dir`: `Clean` of the `Split` dir part. -/
def goDir (p : Str) : Str := goClean (goSplitDir p)

/-! ### `directoryDiff`

Translated from the walker source.  The Go loop `parent = path.Dir(parent)`
need not terminate for exotic relative inputs, so the loop carries fuel and
returns `none` when it runs out; `current.length + 2` steps are enough for
every input on which the Go loop terminates, since each `path.Dir` step
shortens the path until it stabilises. -/

/-- The loop of `directoryDiff`: repeatedly take the parent, stop at the
root, at `prev`, or when `prev ++ "/"` has `parent ++ "/"` as a prefix;
collect intermediate parents and reverse them at the end. -/
def directoryDiffLoop (prev : Str) : Nat → Str → List Str → Option (List Str)
  | 0, _, _ => none
  | fuel + 1, parent, acc =>
    let parent' := goDir parent
    if parent' == ['/'] || parent' == prev || (parent' ++ ['/']).isPrefixOf (prev ++ ['/']) then
      some acc.reverse
    else
      directoryDiffLoop prev fuel parent' (acc ++ [parent'])

/-- `directoryDiff(prev, current)`: the inferred directories between the
previously emitted directory and the current path.  Empty when either input
is empty. -/
def directoryDiff (prev current : Str) : Option (List Str) :=
  if prev.isEmpty || current.isEmpty then some []
  else directoryDiffLoop prev (current.length + 2) current []

/-! ### Go `strings` helpers used by the walker -/

/-- Go `strings.TrimRight(s, "/")`. -/
def trimRightSlash (s : Str) : Str := (s.reverse.dropWhile (· == '/')).reverse

/-- Go `strings.TrimLeft(s, "/")`. -/
def trimLeftSlash (s : Str) : Str := s.dropWhile (· == '/')

/-- `SSS.s3Path`: `strings.TrimLeft(strings.TrimRight(s.rootDirectory, "/")+path, "/")`. -/
def s3Path (rootDirectory p : Str) : Str := trimLeftSlash (trimRightSlash rootDirectory ++ p)

/-- First index at which `sub` occurs in `s` (Go `strings.Index` for nonempty `sub`). -/
def indexOfSub (sub : Str) : Str → Option Nat
  | [] => if sub.isEmpty then some 0 else none
  | c :: t => if sub.isPrefixOf (c :: t) then some 0 else (indexOfSub sub t).map (· + 1)

/-- Go `strings.Replace(s, old, new, 1)`: with `old` empty it inserts `new`
at the start of `s`; otherwise it replaces the first occurrence of `old`. -/
def replaceFirst (s old new : Str) : Str :=
  if old.isEmpty then new ++ s
  else
    match indexOfSub old s with
    | none => s
    | some i => s.take i ++ new ++ s.drop (i + old.length)

/-! ### The directory walker `SSS.doWalk`

The store's paginated `ListObjectsV2` response is modelled as the list of
pages it returns, each page a list of key records; the request construction
(bucket, prefix, start-after) is the store's side and stays external.  The
callback is a function from the emitted entry to one of the Go callback
outcomes (`nil`, `ErrSkipDir`, `ErrFilledBuffer`, or any other error).
`doWalk` returns the exact sequence of callback invocations paired with the
callback's answers, plus the walk's returned error; `none` stands for the
(unreachable on terminating inputs) fuel exhaustion inside `directoryDiff`.
The write-only `objectCount` counter of the source is the trace length and
is not carried separately. -/

/-- One record of a `ListObjectsV2` page: key, size, last-modified. -/
structure KeyObj where
  key : Str
  size : Int
  modTime : Int
deriving DecidableEq

/-- The `fileInfo` passed to the walk callback (directories carry the
zero values for size/modTime, as in the source). -/
structure WFileInfo where
  path : Str
  size : Int
  modTime : Int
  isDir : Bool
deriving DecidableEq

/-- The walk callback's possible answers. -/
inductive WalkRes where
  | next
  | skipDir
  | filledBuffer
  | fail (e : Str)
deriving DecidableEq

/-- Control outcome of emitting one page's entries. -/
inductive WalkCtl where
  | go
  | stopOk
  | stopErr (e : Str)
deriving DecidableEq

/-- Phase 1 of a page: for each listed key, convert it to a path, synthesize
the directory entries `directoryDiff` infers (updating `prevDir` after each),
and append the file entry unless the key is a directory marker (trailing
slash).  Returns the updated `prevDir` and the page's `walkInfos`. -/
def buildWalkInfos (root : Str) : List KeyObj → Str → Option (Str × List WFileInfo)
  | [], prevDir => some (prevDir, [])
  | k :: rest, prevDir =>
    let filePath := replaceFirst k.key (s3Path root []) (if (s3Path root []).isEmpty then ['/'] else [])
    match directoryDiff prevDir filePath with
    | none => none
    | some dirs =>
      let dirInfos := dirs.map fun dp => WFileInfo.mk dp 0 0 true
      let prevDir' := dirs.getLast?.getD prevDir
      let fileInfos :=
        if filePath.getLast? == some '/' then []
        else [WFileInfo.mk filePath k.size k.modTime false]
      match buildWalkInfos root rest prevDir' with
      | none => none
      | some (pd, infos) => some (pd, dirInfos ++ fileInfos ++ infos)

/-- State threaded through the emission phase: the active skip path and the
trace of callback invocations so far. -/
structure EmitSt where
  prevSkipDir : Str
  trace : List (WFileInfo × WalkRes)
deriving DecidableEq

/-- Phase 2 of a page: run the callback over `walkInfos`, suppressing any
entry whose path has the active `prevSkipDir` as a (raw string) prefix, and
reacting to the callback's answer as the source does. -/
def emitInfos (f : WFileInfo → WalkRes) : List WFileInfo → EmitSt → EmitSt × WalkCtl
  | [], st => (st, .go)
  | info :: rest, st =>
    if !st.prevSkipDir.isEmpty && st.prevSkipDir.isPrefixOf info.path then
      emitInfos f rest st
    else
      match f info with
      | .next => emitInfos f rest { st with trace := st.trace ++ [(info, .next)] }
      | .skipDir =>
        emitInfos f rest
          { prevSkipDir := info.path, trace := st.trace ++ [(info, .skipDir)] }
      | .filledBuffer => ({ st with trace := st.trace ++ [(info, .filledBuffer)] }, .stopOk)
      | .fail e => ({ st with trace := st.trace ++ [(info, .fail e)] }, .stopErr e)

/-- The pagination loop: process each page (phases 1 and 2) until a page's
emission stops the walk or the pages run out. -/
def walkPages (root : Str) (f : WFileInfo → WalkRes) :
    List (List KeyObj) → Str → EmitSt → Option (EmitSt × WalkCtl)
  | [], _, st => some (st, .go)
  | page :: rest, prevDir, st =>
    match buildWalkInfos root page prevDir with
    | none => none
    | some (prevDir', infos) =>
      match emitInfos f infos st with
      | (st', .go) => walkPages root f rest prevDir' st'
      | (st', ctl) => some (st', ctl)

/-- `SSS.doWalk`: walk the listing `pages` starting from `from_`, calling
`f` on every surviving entry.  Returns the callback trace and the walk's
error (`ErrFilledBuffer` stops the walk without error; any other callback
error is returned). -/
def doWalk (root : Str) (pages : List (List KeyObj)) (from_ : Str)
    (f : WFileInfo → WalkRes) : Option (List (WFileInfo × WalkRes) × Option Str) :=
  match walkPages root f pages from_ ⟨[], []⟩ with
  | none => none
  | some (st, ctl) =>
    some (st.trace, match ctl with | .stopErr e => some e | _ => none)

/-! ### Multipart reconciliation (`Multipart.Resume`, `Multipart.OrderParts`)

An `s3types.Part` as the listing returns it: the code dereferences
`PartNumber`, `Size` and `ETag`, so a listed part always carries all three;
the sentinel `ignore` marker of the source (a zero `s3types.Part`, whose
nil `PartNumber`/`ETag` pointers no listed part shares) is modelled as a
separate constructor of `PartEntry`. -/

/-- A listed part record. -/
structure MPart where
  partNumber : Int
  size : Int
  etag : Str
  lastModified : Int
deriving DecidableEq

/-- A value of the source's `partMap`: a real part, or the `ignore` marker a
conflicted part number is overwritten with. -/
inductive PartEntry where
  | real (p : MPart)
  | ignore
deriving DecidableEq

/-- Lookup in the part map (Go `partMap[n]`). -/
def lookupPM : List (Int × PartEntry) → Int → Option PartEntry
  | [], _ => none
  | (k, v) :: rest, n => if k = n then some v else lookupPM rest n

/-- Insert-or-replace in the part map (Go `partMap[n] = v`). -/
def insertPM : List (Int × PartEntry) → Int → PartEntry → List (Int × PartEntry)
  | [], n, v => [(n, v)]
  | (k, w) :: rest, n, v => if k = n then (k, v) :: rest else (k, w) :: insertPM rest n v

/-- One iteration of `Resume`'s dedup loop over the listed parts. -/
def resumeStep (m : List (Int × PartEntry)) (part : MPart) : List (Int × PartEntry) :=
  match lookupPM m part.partNumber with
  | some e =>
    match e with
    | .ignore => m
    | .real existing =>
      if part.size ≠ existing.size ∨ part.etag ≠ existing.etag then
        insertPM m part.partNumber .ignore
      else m
  | none => insertPM m part.partNumber (.real part)

/-- The part order `s3parts` sorts by: ascending part number. -/
def partLE (a b : MPart) : Prop := a.partNumber ≤ b.partNumber

instance : DecidableRel partLE := fun a b => Int.decLe a.partNumber b.partNumber

instance : IsTotal MPart partLE := ⟨fun a b => Int.le_total a.partNumber b.partNumber⟩

instance : IsTrans MPart partLE := ⟨fun _ _ _ h h' => le_trans h h'⟩

/-- `Multipart.Resume`, from the point where the paginated listing has been
gathered into `listed`: build the part map, drop the `ignore` markers, and
sort the survivors by part number (`sort.Sort(s3parts(...))`; Go's map
iteration order is unspecified, but the surviving part numbers are distinct,
so the sorted result does not depend on it). -/
def Resume (listed : List MPart) : List MPart :=
  let partMap := listed.foldl resumeStep []
  let uniqueParts := partMap.filterMap fun kv =>
    match kv.2 with
    | .real p => some p
    | .ignore => none
  List.insertionSort partLE uniqueParts

/-- The `*Parts` result of `OrderParts`/`AllParts`: total size, earliest
last-modified, and the parts themselves. -/
structure PartsResult where
  size : Int
  lastModified : Int
  parts : List MPart
deriving DecidableEq

/-- The scanning loop of `OrderParts`: starting at index `i`, accept parts
while the part number equals the 1-based position and the size equals
`chunkSize`; stop at the first violation.  `lm` is the running earliest
last-modified. -/
def orderLoop (chunkSize : Int) : List MPart → Nat → Int → List MPart × Int × Int
  | [], _, lm => ([], 0, lm)
  | p :: rest, i, lm =>
    if p.partNumber ≠ (i : Int) + 1 then ([], 0, lm)
    else if p.size ≠ chunkSize then ([], 0, lm)
    else
      let lm' := if p.lastModified < lm then p.lastModified else lm
      let (ps, sz, lmf) := orderLoop chunkSize rest (i + 1) lm'
      (p :: ps, p.size + sz, lmf)

/-- `Multipart.OrderParts`, given the current `m.parts` (the resume-if-empty
preamble asks the store and is the caller's side).  `now` is `time.Now()`;
an empty part set yields the zero-valued `&Parts{}`. -/
def OrderParts (now : Int) (parts : List MPart) : PartsResult :=
  match parts with
  | [] => ⟨0, 0, []⟩
  | p0 :: _ =>
    let r := orderLoop p0.size parts 0 now
    ⟨r.2.1, r.2.2, r.1⟩

/-! ### The chunked writer

The store is a collaborator: `uploadPart` answers with an etag or an error,
`completeUpload` and `abortUpload` with ok or an error.  Every writer
operation returns the successor state, its result, and the list of store
calls it made, so that "no store call" and "exactly one more part" are
statable.  Errors mirror `fmt.Errorf`: a message, possibly wrapping a
cause. -/

/-- A Go error value: a plain message or a wrapping (`fmt.Errorf("...: %w")`). -/
inductive GoErr where
  | msg (s : String)
  | wrap (s : String) (e : GoErr)
deriving DecidableEq

instance {ε α : Type} [DecidableEq ε] [DecidableEq α] : DecidableEq (Except ε α)
  | .error e, .error e' =>
    if h : e = e' then isTrue (by rw [h])
    else isFalse (by intro hh; injection hh; contradiction)
  | .error _, .ok _ => isFalse (by intro h; cases h)
  | .ok _, .error _ => isFalse (by intro h; cases h)
  | .ok a, .ok b =>
    if h : a = b then isTrue (by rw [h])
    else isFalse (by intro hh; injection hh; contradiction)

/-- The object-store collaborator the writer calls. -/
structure S3Store where
  uploadPart : Int → List Nat → Except String String
  completeUpload : List (Int × String) → Except String Unit
  abortUpload : Except String Unit

/-- A store call made by a writer operation. -/
inductive WCall where
  | uploadPart (partNumber : Int) (body : List Nat)
  | completeUpload (parts : List (Int × String))
  | abortUpload
deriving DecidableEq

/-- A trusted part record held by the writer (`*s3.Part`). -/
structure WPart where
  etag : String
  partNumber : Int
  size : Int
deriving DecidableEq

/-- The writer's mutable state.  `chunkSize` is a `Nat`: the construction
paths only produce positive chunk sizes. -/
structure WriterState where
  parts : List WPart
  size : Int
  buf : List Nat
  chunkSize : Nat
  closed : Bool
  committed : Bool
  cancelled : Bool
deriving DecidableEq

/-- A fresh writer as `SSS.Writer` builds it: a new session, no parts, the
configured chunk size. -/
def freshWriter (chunkSize : Nat) : WriterState :=
  ⟨[], 0, [], chunkSize, false, false, false⟩

namespace writer

/-- `writer.done`: the finalized-state guard. -/
def done (w : WriterState) : Option GoErr :=
  if w.closed then some (.msg "already closed")
  else if w.committed then some (.msg "already committed")
  else if w.cancelled then some (.msg "already cancelled")
  else none

/-- `writer.flush`: a no-op on an empty buffer; otherwise consume the next
`chunkSize` bytes from the buffer (`w.buf.Next` advances the buffer before
the upload), upload them as part `len(parts)+1`, and on success append the
part record and advance `size`. -/
def flush (st : S3Store) (w : WriterState) : WriterState × Option GoErr × List WCall :=
  if w.buf.isEmpty then (w, none, [])
  else
    let chunk := w.buf.take w.chunkSize
    let partNumber : Int := (w.parts.length : Int) + 1
    let w1 := { w with buf := w.buf.drop w.chunkSize }
    match st.uploadPart partNumber chunk with
    | .error e => (w1, some (.wrap "upload part" (.msg e)), [.uploadPart partNumber chunk])
    | .ok etag =>
      ({ w1 with
          parts := w1.parts ++ [⟨etag, partNumber, (chunk.length : Int)⟩],
          size := w1.size + (chunk.length : Int) },
        none, [.uploadPart partNumber chunk])

/-- The `for w.buf.Len() >= w.chunkSize { flush }` loop of `Write`.  The
fuel (one more than the buffered length at entry suffices, since each
successful flush consumes `chunkSize ≥ 1` bytes) only guards the case
`chunkSize = 0`, on which the Go loop does not terminate. -/
def flushLoop (st : S3Store) : Nat → WriterState → WriterState × Option GoErr × List WCall
  | 0, w => (w, none, [])
  | fuel + 1, w =>
    if w.chunkSize ≤ w.buf.length ∧ 0 < w.chunkSize then
      match flush st w with
      | (w', some e, cs) => (w', some e, cs)
      | (w', none, cs) =>
        let r := flushLoop st fuel w'
        (r.1, r.2.1, cs ++ r.2.2)
    else (w, none, [])

/-- `writer.Write`: fail if finalized; append `p` to the buffer; flush while
a full chunk is buffered.  On success the byte count written is `len(p)`;
a flush error is wrapped and returned (Go returns `0, err`). -/
def Write (st : S3Store) (w : WriterState) (p : List Nat) :
    WriterState × Except GoErr Nat × List WCall :=
  match done w with
  | some e => (w, .error e, [])
  | none =>
    let w1 := { w with buf := w.buf ++ p }
    match flushLoop st (w1.buf.length + 1) w1 with
    | (w', some e, cs) => (w', .error (.wrap "flush" e), cs)
    | (w', none, cs) => (w', .ok p.length, cs)

/-- The completed-part order `s3completedParts` sorts by. -/
def cpLE (a b : Int × String) : Prop := a.1 ≤ b.1

instance : DecidableRel cpLE := fun a b => Int.decLe a.1 b.1

/-- `writer.Commit`: fail if finalized; flush the remainder; mark committed;
fail on an empty trusted set; sort the completed parts and ask the store to
complete the upload. -/
def Commit (st : S3Store) (w : WriterState) : WriterState × Option GoErr × List WCall :=
  match done w with
  | some e => (w, some e, [])
  | none =>
    match flush st w with
    | (w1, some e, cs) => (w1, some e, cs)
    | (w1, none, cs) =>
      let w2 := { w1 with committed := true }
      if w2.parts.length = 0 then (w2, some (.msg "no parts to commit"), cs)
      else
        let completed := List.insertionSort cpLE (w2.parts.map fun p => (p.partNumber, p.etag))
        match st.completeUpload completed with
        | .error e => (w2, some (.msg e), cs ++ [.completeUpload completed])
        | .ok _ => (w2, none, cs ++ [.completeUpload completed])

/-- `writer.Cancel`: fail if finalized; mark cancelled; abort the upload. -/
def Cancel (st : S3Store) (w : WriterState) : WriterState × Option GoErr × List WCall :=
  match done w with
  | some e => (w, some e, [])
  | none =>
    let w1 := { w with cancelled := true }
    match st.abortUpload with
    | .error e => (w1, some (.msg e), [.abortUpload])
    | .ok _ => (w1, none, [.abortUpload])

/-- `writer.Close`: fail on a second call; otherwise mark closed and release
the buffer back to the pool (the buffer is reset). -/
def Close (w : WriterState) : WriterState × Option GoErr :=
  if w.closed then (w, some (.msg "already closed"))
  else ({ w with closed := true, buf := [] }, none)

end writer

/-- Apply a sequence of `Write` calls, keeping the successor states. -/
def applyWrites (st : S3Store) : WriterState → List (List Nat) → WriterState
  | w, [] => w
  | w, p :: rest => applyWrites st (writer.Write st w p).1 rest

/-- Whether every `Write` of the sequence reported success. -/
def allWritesOk (st : S3Store) : WriterState → List (List Nat) → Prop
  | _, [] => True
  | w, p :: rest =>
    (∃ n, (writer.Write st w p).2.1 = .ok n) ∧ allWritesOk st (writer.Write st w p).1 rest

/-- The number of `uploadPart` calls in a call list. -/
def countUploads (cs : List WCall) : Nat :=
  (cs.filter fun c => match c with | .uploadPart _ _ => true | _ => false).length

/-! ### Concrete collaborators and listings used in closed statements -/

/-- A store whose calls all succeed. -/
def okStore : S3Store := ⟨fun _ _ => .ok "etag", fun _ => .ok (), .ok ()⟩

/-- A store whose calls all fail. -/
def failStore : S3Store := ⟨fun _ _ => .error "boom", fun _ => .error "boom", .error "boom"⟩

/-- A strictly sorted single-page listing containing a key with a `..`
segment sorted after the `c/f` subtree and after `c/g`. -/
def pagesC9 : List (List KeyObj) :=
  [[⟨"c/f/a".data, 1, 0⟩, ⟨"c/g".data, 2, 0⟩, ⟨"c/g0/../f/w/z".data, 3, 0⟩]]

/-- A callback answering the skip signal at directory `/c/f` and at file
`/c/g`, and continue everywhere else. -/
def fC9 : WFileInfo → WalkRes := fun e =>
  if e.path = "/c/f".data ∨ e.path = "/c/g".data then .skipDir else .next

/-- A sorted single-page listing with a sibling `c/foo` of the directory
`c/f` (same raw string start, different path segment). -/
def pagesC10 : List (List KeyObj) :=
  [[⟨"c/f/g".data, 1, 0⟩, ⟨"c/foo".data, 2, 0⟩, ⟨"d".data, 3, 0⟩]]

/-- A callback answering the skip signal exactly at directory `/c/f`. -/
def fC10 : WFileInfo → WalkRes := fun e =>
  if e.path = "/c/f".data then .skipDir else .next

/-- The part-map extraction `Resume` performs: keep the real entries, drop
the `ignore` markers. -/
def realEntries (m : List (Int × PartEntry)) : List MPart :=
  m.filterMap fun kv =>
    match kv.2 with
    | .real p => some p
    | .ignore => none

/-- The dedup invariant tying the part map to the prefix of listed parts
already processed: for every part number, an absent entry means no such
listing, a real entry is the first listing and all listings so far agree
with it, and an `ignore` entry witnesses two divergent listings. -/
def InvAt (processed : List MPart) (m : List (Int × PartEntry)) (n : Int) : Prop :=
  (lookupPM m n = none → ∀ p ∈ processed, p.partNumber ≠ n) ∧
  (∀ p, lookupPM m n = some (.real p) →
    p ∈ processed ∧ p.partNumber = n ∧
    ∀ q ∈ processed, q.partNumber = n → q.size = p.size ∧ q.etag = p.etag) ∧
  (lookupPM m n = some .ignore →
    ∃ p ∈ processed, p.partNumber = n ∧
    ∃ q ∈ processed, q.partNumber = n ∧ (p.size ≠ q.size ∨ p.etag ≠ q.etag))

/-- The full dedup invariant: distinct keys, and `InvAt` for every part
number. -/
def MapInv (processed : List MPart) (m : List (Int × PartEntry)) : Prop :=
  (m.map Prod.fst).Nodup ∧ ∀ n : Int, InvAt processed m n

/-- Part numbering invariant of the writer's trusted set: the i-th part
(0-based) carries part number i+1. -/
def partsNumbered (ps : List WPart) : Prop :=
  ∀ i, (hi : i < ps.length) → (ps.get ⟨i, hi⟩).partNumber = (i : Int) + 1

/-- Total number of bytes in a sequence of write payloads. -/
def totalLen (ws : List (List Nat)) : Nat := (ws.map List.length).sum

/-- A sorted candidate part set with a numbering gap at part 3. -/
def partsC1 : List MPart :=
  [⟨1, 5, "a".data, 3⟩, ⟨2, 5, "b".data, 4⟩, ⟨4, 5, "c".data, 5⟩]

/-- A writer with three bytes buffered and chunk size two. -/
def wC3 : WriterState := ⟨[], 0, [9, 9, 9], 2, false, false, false⟩

/-- A writer already committed. -/
def wC5 : WriterState := ⟨[], 0, [], 2, false, true, false⟩

/-- The walk invariant behind subtree skipping, for a callback whose only
skip answer is at path `d`: every trace entry after a skip answer is not
`d`-prefixed, and once a skip answer happened the active skip path is `d`. -/
def skipInv (d : Str) (st : EmitSt) : Prop :=
  (∀ t1 pr t2, st.trace = t1 ++ pr :: t2 → pr.2 = WalkRes.skipDir →
    ∀ q ∈ t2, d.isPrefixOf q.1.path = false) ∧
  ((∃ pr ∈ st.trace, pr.2 = WalkRes.skipDir) → st.prevSkipDir = d)

/-! ### Lemmas about the walker's skip suppression -/

/-- Decomposing a snoc list as `t1 ++ pr :: t2`: either the marked element
is the appended one, or the decomposition lives in the original list. -/
theorem snoc_eq_append_cons {α : Type} {tr : List α} {x : α} {t1 : List α} {pr : α}
    {t2 : List α} (h : tr ++ [x] = t1 ++ pr :: t2) :
    (t1 = tr ∧ pr = x ∧ t2 = []) ∨ ∃ t2', t2 = t2' ++ [x] ∧ tr = t1 ++ pr :: t2' := by
  rcases List.eq_nil_or_concat t2 with rfl | ⟨t2', y, rfl⟩
  · obtain ⟨h1, h2⟩ := List.append_inj' h rfl
    exact Or.inl ⟨h1.symm, by simpa using h2.symm, rfl⟩
  · have h' : tr ++ [x] = (t1 ++ pr :: t2') ++ [y] := by
      simpa [List.concat_eq_append] using h
    obtain ⟨h1, h2⟩ := List.append_inj' h' rfl
    have hxy : x = y := by simpa using h2
    exact Or.inr ⟨t2', by rw [List.concat_eq_append, hxy], h1⟩

/-- Appending a non-suppressed entry to the trace preserves `skipInv`. -/
theorem skipInv_append {d : Str} (hd : d ≠ []) {st : EmitSt} {info : WFileInfo}
    (r : WalkRes) (hinv : skipInv d st)
    (hcond : (!st.prevSkipDir.isEmpty && st.prevSkipDir.isPrefixOf info.path) = false)
    (hr : r = WalkRes.skipDir → info.path = d) :
    skipInv d ⟨if r = WalkRes.skipDir then info.path else st.prevSkipDir,
      st.trace ++ [(info, r)]⟩ := by
  have hnotpref : st.prevSkipDir = d → d.isPrefixOf info.path = false := by
    intro hpsd
    rw [hpsd] at hcond
    have hne : d.isEmpty = false := by
      cases d with
      | nil => exact absurd rfl hd
      | cons a l => rfl
    simpa [hne] using hcond
  constructor
  · intro t1 pr t2 hdec hskip q hq
    rcases snoc_eq_append_cons hdec with ⟨rfl, rfl, rfl⟩ | ⟨t2', rfl, hdec'⟩
    · simp at hq
    · have hprmem : pr ∈ st.trace := by rw [hdec']; simp
      have hpsd : st.prevSkipDir = d := hinv.2 ⟨pr, hprmem, hskip⟩
      rcases List.mem_append.mp hq with hq' | hq'
      · exact hinv.1 t1 pr t2' hdec' hskip q hq'
      · have : q = (info, r) := by simpa using hq'
        rw [this]
        exact hnotpref hpsd
  · rintro ⟨pr, hpr, hskip⟩
    rcases List.mem_append.mp hpr with hmem | hmem
    · have hpsd : st.prevSkipDir = d := hinv.2 ⟨pr, hmem, hskip⟩
      split
      · next hcase => exact hr hcase
      · exact hpsd
    · have hpr' : pr = (info, r) := by simpa using hmem
      rw [hpr'] at hskip
      rw [if_pos hskip]
      exact hr hskip

/-- The initial emission state satisfies `skipInv`. -/
theorem skipInv_init (d : Str) : skipInv d ⟨[], []⟩ := by
  constructor
  · intro t1 pr t2 h
    simp at h
  · rintro ⟨pr, h, _⟩
    simp at h

/-- Emitting a page's entries preserves `skipInv` when the callback answers
the skip signal only at path `d`. -/
theorem emitInfos_skipInv {f : WFileInfo → WalkRes} {d : Str} (hd : d ≠ [])
    (Hf : ∀ e, f e = WalkRes.skipDir → e.path = d) :
    ∀ infos st, skipInv d st → skipInv d (emitInfos f infos st).1 := by
  intro infos
  induction infos with
  | nil =>
    intro st h
    simpa [emitInfos] using h
  | cons info rest ih =>
    intro st h
    by_cases hcond : (!st.prevSkipDir.isEmpty && st.prevSkipDir.isPrefixOf info.path) = true
    · rw [emitInfos, if_pos hcond]
      exact ih st h
    · have hcond' : (!st.prevSkipDir.isEmpty && st.prevSkipDir.isPrefixOf info.path) = false :=
        Bool.eq_false_iff.mpr hcond
    
      rw [emitInfos, if_neg hcond]
      cases hf : f info with
      | next =>
        have h' := skipInv_append hd WalkRes.next h hcond' (by intro hc; cases hc)
        simp only [reduceIte] at h'
        exact ih _ h'
      | skipDir =>
        have h' := skipInv_append hd WalkRes.skipDir h hcond'
          (fun _ => Hf info hf)
        simp only [reduceIte] at h'
        exact ih _ h'
      | filledBuffer =>
        have h' := skipInv_append hd WalkRes.filledBuffer h hcond' (by intro hc; cases hc)
        simp only [reduceIte] at h'
        exact h'
      | fail e =>
        have h' := skipInv_append hd (WalkRes.fail e) h hcond' (by intro hc; cases hc)
        simp only [reduceIte] at h'
        exact h'

/-- The pagination loop preserves `skipInv` when the callback answers the
skip signal only at path `d`. -/
theorem walkPages_skipInv {root : Str} {f : WFileInfo → WalkRes} {d : Str} (hd : d ≠ [])
    (Hf : ∀ e, f e = WalkRes.skipDir → e.path = d) :
    ∀ pages prevDir st out,
      walkPages root f pages prevDir st = some out → skipInv d st → skipInv d out.1 := by
  intro pages
  induction pages with
  | nil =>
    intro prevDir st out h hin
    simp [walkPages] at h
    rw [← h]
    exact hin
  | cons page rest ih =>
    intro prevDir st out h hin
    rw [walkPages] at h
    split at h
    · cases h
    · rename_i pd' infos heq
      have hst' := emitInfos_skipInv hd Hf infos st hin
      split at h
      · rename_i st' heq2
        rw [heq2] at hst'
        exact ih _ st' out h hst'
      · rename_i st' ctl heq2 hne
        rw [hne] at hst'
        cases h
        exact hst'

/-- Master suppression property: in any walk whose callback answers the
skip signal only at path `d`, no trace entry after a skip answer has `d` as
a raw string prefix of its path. -/
theorem doWalk_skip_master {root : Str} {pages : List (List KeyObj)} {from_ d : Str}
    {f : WFileInfo → WalkRes} {tr : List (WFileInfo × WalkRes)} {err : Option Str}
    (hd : d ≠ []) (Hf : ∀ e, f e = WalkRes.skipDir → e.path = d)
    (hw : doWalk root pages from_ f = some (tr, err)) :
    ∀ t1 pr t2, tr = t1 ++ pr :: t2 → pr.2 = WalkRes.skipDir →
      ∀ q ∈ t2, d.isPrefixOf q.1.path = false := by
  unfold doWalk at hw
  split at hw
  · cases hw
  · rename_i st ctl heq
    have hinv := walkPages_skipInv hd Hf pages from_ ⟨[], []⟩ (st, ctl) heq (skipInv_init d)
    have htr : tr = st.trace := by
      injection hw with hw'
      injection hw' with h1 h2
      exact h1.symm
    rw [htr]
    exact hinv.1

/-- C9 (amended): during a walk whose callback returns the skip-subtree
signal only for entries with path `d` (here the skipped directory), once a
skip signal has been returned, no later entry whose path has `d ++ "/"` as
a string prefix is passed to the callback for the remainder of that walk,
including across listing pages.  (The unamended claim fails when a second
skip signal overwrites the remembered prefix: see the counterexample.) -/
theorem walk_skip_suppression_amended (root : Str) (pages : List (List KeyObj))
    (from_ d : Str) (f : WFileInfo → WalkRes) (tr : List (WFileInfo × WalkRes))
    (err : Option Str) (hd : d ≠ [])
    (Hf : ∀ e, f e = WalkRes.skipDir → e.path = d)
    (hw : doWalk root pages from_ f = some (tr, err)) :
    ∀ t1 pr t2, tr = t1 ++ pr :: t2 → pr.2 = WalkRes.skipDir →
      ∀ q ∈ t2, ¬ (d ++ ['/']) <+: q.1.path := by
  intro t1 pr t2 hdec hskip q hq hpref
  have h1 : d <+: q.1.path := (List.prefix_append d ['/']).trans hpref
  have h2 := doWalk_skip_master hd Hf hw t1 pr t2 hdec hskip q hq
  have h3 : d.isPrefixOf q.1.path = true := List.isPrefixOf_iff_prefix.mpr h1
  rw [h2] at h3
  cases h3

/-- C9 (counterexample): on the strictly sorted listing `pagesC9` (whose
last key holds a `..` segment), the callback skips directory `/c/f`, later
skips file `/c/g`, and is then invoked with `/c/f/w` — an entry whose path
has `/c/f` plus the separator as a prefix, after the skip signal for the
directory entry `/c/f`. -/
theorem walk_skip_suppression_counterexample :
    doWalk [] pagesC9 "/".data fC9 =
      some ([(⟨"/c".data, 0, 0, true⟩, .next), (⟨"/c/f".data, 0, 0, true⟩, .skipDir),
        (⟨"/c/g".data, 2, 0, false⟩, .skipDir), (⟨"/c/f/w".data, 0, 0, true⟩, .next)], none) ∧
    ("/c/f".data ++ ['/']) <+: "/c/f/w".data := by
  exact ⟨by decide, by decide⟩

/-- The callback `fC10` answers the skip signal only at `/c/f`. -/
theorem fC10_skip_only : ∀ e, fC10 e = WalkRes.skipDir → e.path = "/c/f".data := by
  intro e h
  unfold fC10 at h
  split at h
  · assumption
  · cases h

/-- C9 witness: a concrete single-skip walk on `pagesC10`; the entry `/d`
called after the skip at `/c/f` is not under `/c/f/`. -/
theorem walk_skip_suppression_amended_witness :
    ¬ ("/c/f".data ++ ['/']) <+: "/d".data :=
  walk_skip_suppression_amended [] pagesC10 "/".data "/c/f".data fC10
    [(⟨"/c".data, 0, 0, true⟩, .next), (⟨"/c/f".data, 0, 0, true⟩, .skipDir),
      (⟨"/d".data, 3, 0, false⟩, .next)] none (by decide) fC10_skip_only (by decide)
    [(⟨"/c".data, 0, 0, true⟩, .next)] (⟨"/c/f".data, 0, 0, true⟩, .skipDir)
    [(⟨"/d".data, 3, 0, false⟩, .next)] (by decide) (by decide)
    (⟨"/d".data, 3, 0, false⟩, .next) (by decide)

/-- C10: the walk's subtree-skip suppression is a raw string-prefix test on
the skipped entry's path: while the skip for `d` is the active one, every
subsequent entry whose path begins with the string `d` is suppressed —
and so, as the closed conjunct shows, on `pagesC10` the sibling file
`/c/foo` (outside the subtree of directory `/c/f`) is also withheld from
the callback after `/c/f` is skipped. -/
theorem walk_skip_raw_suppression (root : Str) (pages : List (List KeyObj))
    (from_ d : Str) (f : WFileInfo → WalkRes) (tr : List (WFileInfo × WalkRes))
    (err : Option Str) (hd : d ≠ [])
    (Hf : ∀ e, f e = WalkRes.skipDir → e.path = d)
    (hw : doWalk root pages from_ f = some (tr, err)) :
    (∀ t1 pr t2, tr = t1 ++ pr :: t2 → pr.2 = WalkRes.skipDir →
      ∀ q ∈ t2, ¬ d <+: q.1.path) ∧
    doWalk [] pagesC10 "/".data fC10 =
      some ([(⟨"/c".data, 0, 0, true⟩, .next), (⟨"/c/f".data, 0, 0, true⟩, .skipDir),
        (⟨"/d".data, 3, 0, false⟩, .next)], none) := by
  constructor
  · intro t1 pr t2 hdec hskip q hq hpref
    have h2 := doWalk_skip_master hd Hf hw t1 pr t2 hdec hskip q hq
    have h3 : d.isPrefixOf q.1.path = true := List.isPrefixOf_iff_prefix.mpr hpref
    rw [h2] at h3
    cases h3
  · decide

/-- C10 witness: concrete instance of the raw-prefix suppression. -/
theorem walk_skip_raw_suppression_witness :
    ¬ "/c/f".data <+: "/d".data :=
  (walk_skip_raw_suppression [] pagesC10 "/".data "/c/f".data fC10
    [(⟨"/c".data, 0, 0, true⟩, .next), (⟨"/c/f".data, 0, 0, true⟩, .skipDir),
      (⟨"/d".data, 3, 0, false⟩, .next)] none (by decide) fC10_skip_only (by decide)).1
    [(⟨"/c".data, 0, 0, true⟩, .next)] (⟨"/c/f".data, 0, 0, true⟩, .skipDir)
    [(⟨"/d".data, 3, 0, false⟩, .next)] (by decide) (by decide)
    (⟨"/d".data, 3, 0, false⟩, .next) (by decide)

/-- C7: `directoryDiff` on the spec's examples, and the empty-argument
cases (the model returns `some` on every terminating input; the loop fuel
only guards inputs on which the Go loop never breaks). -/
theorem directoryDiff_spec :
    directoryDiff "/a/b".data "/a/b/c/d/file".data
      = some ["/a/b/c".data, "/a/b/c/d".data] ∧
    directoryDiff "/a/b1".data "/a/b2/file".data = some ["/a/b2".data] ∧
    (∀ s : Str, directoryDiff [] s = some []) ∧
    (∀ s : Str, directoryDiff s [] = some []) := by
  refine ⟨by decide, by decide, fun s => ?_, fun s => ?_⟩
  · simp [directoryDiff]
  · simp [directoryDiff]

/-- C8: walking the sorted keys `a, b, c/d, c/e, c/f/g, c/f/h` from the
root calls the callback exactly with file `/a`, file `/b`, directory `/c`,
file `/c/d`, file `/c/e`, directory `/c/f`, file `/c/f/g`, file `/c/f/h`,
in that order, each inferred directory emitted once immediately before its
first descendant. -/
theorem walk_sorted_listing_example :
    doWalk [] [[⟨"a".data, 1, 0⟩, ⟨"b".data, 2, 0⟩, ⟨"c/d".data, 3, 0⟩, ⟨"c/e".data, 4, 0⟩,
        ⟨"c/f/g".data, 5, 0⟩, ⟨"c/f/h".data, 6, 0⟩]] "/".data (fun _ => WalkRes.next)
    = some ([(⟨"/a".data, 1, 0, false⟩, .next), (⟨"/b".data, 2, 0, false⟩, .next),
        (⟨"/c".data, 0, 0, true⟩, .next), (⟨"/c/d".data, 3, 0, false⟩, .next),
        (⟨"/c/e".data, 4, 0, false⟩, .next), (⟨"/c/f".data, 0, 0, true⟩, .next),
        (⟨"/c/f/g".data, 5, 0, false⟩, .next), (⟨"/c/f/h".data, 6, 0, false⟩, .next)], none) := by
  decide

/-! ### Writer theorems -/

/-- A passing `done` guard means none of the one-shot flags is set. -/
theorem done_none_flags {w : WriterState} (h : writer.done w = none) :
    w.closed = false ∧ w.committed = false ∧ w.cancelled = false := by
  unfold writer.done at h
  split_ifs at h with h1 h2 h3
  exact ⟨Bool.not_eq_true _ ▸ Bool.eq_false_iff.mpr h1,
    Bool.eq_false_iff.mpr h2, Bool.eq_false_iff.mpr h3⟩

/-- `flush` never touches the one-shot flags. -/
theorem flush_preserves_flags (st : S3Store) (w : WriterState) :
    ((writer.flush st w).1).closed = w.closed ∧
    ((writer.flush st w).1).committed = w.committed ∧
    ((writer.flush st w).1).cancelled = w.cancelled := by
  unfold writer.flush
  split
  · exact ⟨rfl, rfl, rfl⟩
  · dsimp only
    split <;> exact ⟨rfl, rfl, rfl⟩

/-- C5: once any one-shot flag is set, `Write`, `Commit` and `Cancel` fail
immediately with the error naming the terminal state (checked in the order
closed, committed, cancelled), leave the state untouched and make no store
call; `Close` itself fails when called a second time. -/
theorem finalized_writer_fails_fast (st : S3Store) (w : WriterState) (p : List Nat)
    (h : w.closed = true ∨ w.committed = true ∨ w.cancelled = true) :
    ∃ e, writer.done w = some e ∧
      ((e = GoErr.msg "already closed" ∧ w.closed = true) ∨
       (e = GoErr.msg "already committed" ∧ w.committed = true) ∨
       (e = GoErr.msg "already cancelled" ∧ w.cancelled = true)) ∧
      writer.Write st w p = (w, .error e, []) ∧
      writer.Commit st w = (w, some e, []) ∧
      writer.Cancel st w = (w, some e, []) ∧
      (w.closed = true → writer.Close w = (w, some (GoErr.msg "already closed"))) ∧
      (writer.Close (writer.Close w).1).2 = some (GoErr.msg "already closed") := by
  by_cases hc : w.closed = true
  · refine ⟨.msg "already closed", ?_, Or.inl ⟨rfl, hc⟩, ?_, ?_, ?_, ?_, ?_⟩
    · simp [writer.done, hc]
    · simp [writer.Write, writer.done, hc]
    · simp [writer.Commit, writer.done, hc]
    · simp [writer.Cancel, writer.done, hc]
    · intro _; simp [writer.Close, hc]
    · simp [writer.Close, hc]
  · by_cases hm : w.committed = true
    · refine ⟨.msg "already committed", ?_, Or.inr (Or.inl ⟨rfl, hm⟩), ?_, ?_, ?_,
        fun hcl => absurd hcl hc, ?_⟩
      · simp [writer.done, hc, hm]
      · simp [writer.Write, writer.done, hc, hm]
      · simp [writer.Commit, writer.done, hc, hm]
      · simp [writer.Cancel, writer.done, hc, hm]
      · simp [writer.Close, hc]
    · have hn : w.cancelled = true := by tauto
      refine ⟨.msg "already cancelled", ?_, Or.inr (Or.inr ⟨rfl, hn⟩), ?_, ?_, ?_,
        fun hcl => absurd hcl hc, ?_⟩
      · simp [writer.done, hc, hm, hn]
      · simp [writer.Write, writer.done, hc, hm, hn]
      · simp [writer.Commit, writer.done, hc, hm, hn]
      · simp [writer.Cancel, writer.done, hc, hm, hn]
      · simp [writer.Close, hc]

/-- C5 witness: a committed writer. -/
theorem finalized_writer_fails_fast_witness :
    ∃ e, writer.done wC5 = some e ∧
      ((e = GoErr.msg "already closed" ∧ wC5.closed = true) ∨
       (e = GoErr.msg "already committed" ∧ wC5.committed = true) ∨
       (e = GoErr.msg "already cancelled" ∧ wC5.cancelled = true)) ∧
      writer.Write okStore wC5 [1] = (wC5, .error e, []) ∧
      writer.Commit okStore wC5 = (wC5, some e, []) ∧
      writer.Cancel okStore wC5 = (wC5, some e, []) ∧
      (wC5.closed = true → writer.Close wC5 = (wC5, some (GoErr.msg "already closed"))) ∧
      (writer.Close (writer.Close wC5).1).2 = some (GoErr.msg "already closed") :=
  finalized_writer_fails_fast okStore wC5 [1] (Or.inr (Or.inl rfl))

/-- C4 (amended): `Commit` on a non-finalized writer sets `committed := true`
immediately after a successful flush and before the complete-upload call:
on flush failure `committed` stays false and the flush error is returned,
but once the flush succeeds `committed` is true even on the no-parts error
path and on complete-upload failure.  (The unamended claim — committed only
after the store acknowledges, false on every error path — fails: see the
counterexample.) -/
theorem commit_commits_after_flush (st : S3Store) (w : WriterState)
    (hdone : writer.done w = none) :
    (∀ e, (writer.flush st w).2.1 = some e →
      writer.Commit st w = ((writer.flush st w).1, some e, (writer.flush st w).2.2) ∧
      ((writer.Commit st w).1).committed = false) ∧
    ((writer.flush st w).2.1 = none → ((writer.Commit st w).1).committed = true) := by
  have hflags := done_none_flags hdone
  have hw1flags := flush_preserves_flags st w
  rcases hf : writer.flush st w with ⟨w1, r, cs⟩
  rw [hf] at hw1flags
  simp only at hw1flags
  unfold writer.Commit
  rw [hdone, hf]
  cases r with
  | some e =>
    constructor
    · intro e' he'
      simp only at he'
      injection he' with he'
      subst he'
      exact ⟨rfl, by simp only; rw [hw1flags.2.1, hflags.2.1]⟩
    · intro hnone
      simp at hnone
  | none =>
    constructor
    · intro e' he'
      simp at he'
    · intro _
      dsimp only
      split
      · rfl
      · split <;> rfl

/-- C4 (counterexample): committing a fresh writer errors with the no-parts
message, yet the committed flag is already true. -/
theorem commit_committed_flag_counterexample :
    writer.Commit okStore (freshWriter 2) =
      (⟨[], 0, [], 2, false, true, false⟩, some (.msg "no parts to commit"), []) ∧
    ((writer.Commit okStore (freshWriter 2)).1).committed = true ∧
    (writer.Commit okStore (freshWriter 2)).2.1 ≠ none := by
  exact ⟨by decide, by decide, by decide⟩

/-- C4 witness: the amended statement at a fresh writer and the all-ok
store. -/
theorem commit_commits_after_flush_witness :
    (∀ e, (writer.flush okStore (freshWriter 2)).2.1 = some e →
      writer.Commit okStore (freshWriter 2) =
        ((writer.flush okStore (freshWriter 2)).1, some e,
          (writer.flush okStore (freshWriter 2)).2.2) ∧
      ((writer.Commit okStore (freshWriter 2)).1).committed = false) ∧
    ((writer.flush okStore (freshWriter 2)).2.1 = none →
      ((writer.Commit okStore (freshWriter 2)).1).committed = true) :=
  commit_commits_after_flush okStore (freshWriter 2) rfl

/-- C3 (amended): when the upload-part call fails during a flush, the
wrapped error is returned, no part is appended and `size` does not advance —
but the chunk's bytes have already been consumed from the buffer by
`w.buf.Next(w.chunkSize)`: only the bytes beyond the failed chunk remain
buffered, so a retried `Write` does not resend the lost chunk.  (The
unamended claim — the failed chunk's bytes remain in the buffer — fails:
see the counterexample.) -/
theorem flush_failure_consumes_chunk (st : S3Store) (w : WriterState) (e : String)
    (hbuf : w.buf ≠ [])
    (hup : st.uploadPart ((w.parts.length : Int) + 1) (w.buf.take w.chunkSize)
      = .error e) :
    (writer.flush st w).2.1 = some (.wrap "upload part" (.msg e)) ∧
    ((writer.flush st w).1).parts = w.parts ∧
    ((writer.flush st w).1).size = w.size ∧
    ((writer.flush st w).1).buf = w.buf.drop w.chunkSize ∧
    (writer.flush st w).2.2 =
      [.uploadPart ((w.parts.length : Int) + 1) (w.buf.take w.chunkSize)] := by
  unfold writer.flush
  rw [if_neg (by simp [List.isEmpty_iff, hbuf])]
  dsimp only
  rw [hup]
  exact ⟨rfl, rfl, rfl, rfl, rfl⟩

/-- C3 (counterexample): with a store that rejects the upload, writing three
bytes at chunk size two returns the wrapped error without appending a part
or advancing `size`, but leaves only the third byte buffered — the failed
chunk's bytes are gone from the buffer. -/
theorem flush_failure_buffer_counterexample :
    writer.Write failStore (freshWriter 2) [0, 1, 2] =
      (⟨[], 0, [2], 2, false, false, false⟩,
        .error (.wrap "flush" (.wrap "upload part" (.msg "boom"))),
        [.uploadPart 1 [0, 1]]) ∧
    ((writer.Write failStore (freshWriter 2) [0, 1, 2]).1).buf ≠ [0, 1, 2] := by
  exact ⟨by decide, by decide⟩

/-- C3 witness: the amended statement at a concrete buffered writer and the
failing store. -/
theorem flush_failure_consumes_chunk_witness :
    (writer.flush failStore wC3).2.1 = some (.wrap "upload part" (.msg "boom")) ∧
    ((writer.flush failStore wC3).1).parts = wC3.parts ∧
    ((writer.flush failStore wC3).1).size = wC3.size ∧
    ((writer.flush failStore wC3).1).buf = wC3.buf.drop wC3.chunkSize ∧
    (writer.flush failStore wC3).2.2 =
      [.uploadPart ((wC3.parts.length : Int) + 1) (wC3.buf.take wC3.chunkSize)] :=
  flush_failure_consumes_chunk failStore wC3 "boom" (by decide) rfl

/-! ### `OrderParts`: the trusted-prefix computation -/

/-- The scanning loop accepts exactly the maximal prefix on which the part
number equals the 1-based position (offset by `i`) and the size equals
`chunkSize`; it returns that prefix and the sum of its sizes. -/
theorem orderLoop_spec (chunk : Int) :
    ∀ (l : List MPart) (i : Nat) (lm : Int),
    ∃ k, k ≤ l.length ∧
      (orderLoop chunk l i lm).1 = l.take k ∧
      (∀ j, j < k → ∃ hjl : j < l.length,
        (l.get ⟨j, hjl⟩).partNumber = (i : Int) + j + 1 ∧
        (l.get ⟨j, hjl⟩).size = chunk) ∧
      (k = l.length ∨ ∃ hkl : k < l.length,
        (l.get ⟨k, hkl⟩).partNumber ≠ (i : Int) + k + 1 ∨
        (l.get ⟨k, hkl⟩).size ≠ chunk) ∧
      (orderLoop chunk l i lm).2.1 = ((l.take k).map MPart.size).sum := by
  intro l
  induction l with
  | nil =>
    intro i lm
    exact ⟨0, by simp [orderLoop]⟩
  | cons p rest ih =>
    intro i lm
    by_cases h1 : p.partNumber = (i : Int) + 1
    · by_cases h2 : p.size = chunk
      · obtain ⟨k', hk'le, hps, haccept, hstop, hsum⟩ :=
          ih (i + 1) (if p.lastModified < lm then p.lastModified else lm)
        rcases hrec : orderLoop chunk rest (i + 1)
            (if p.lastModified < lm then p.lastModified else lm) with ⟨ps, sz, lmf⟩
        rw [hrec] at hps hsum
        simp only at hps hsum
        have hloop : orderLoop chunk (p :: rest) i lm = (p :: ps, p.size + sz, lmf) := by
          rw [orderLoop, if_neg (not_not_intro h1), if_neg (not_not_intro h2)]
          dsimp only
          rw [hrec]
        refine ⟨k' + 1, by simpa using Nat.succ_le_succ hk'le, ?_, ?_, ?_, ?_⟩
        · rw [hloop]
          simp only [List.take_succ_cons]
          rw [hps]
        · intro j hj
          cases j with
          | zero =>
            refine ⟨by simp, ?_, h2⟩
            simpa using h1
          | succ j' =>
            obtain ⟨hjl, hpn, hsz⟩ := haccept j' (by omega)
            have hjl' : j' + 1 < (p :: rest).length := by simp; omega
            refine ⟨hjl', ?_, ?_⟩
            · rw [List.get_cons_succ, hpn]
              push_cast
              ring
            · rw [List.get_cons_succ]
              exact hsz
        · rcases hstop with hlen | ⟨hkl, hviol⟩
          · left
            simp [hlen]
          · right
            have hkl' : k' + 1 < (p :: rest).length := by simp; omega
            refine ⟨hkl', ?_⟩
            rcases hviol with hv | hv
            · left
              rw [List.get_cons_succ]
              intro hcon
              apply hv
              rw [hcon]
              push_cast
              ring
            · right
              rw [List.get_cons_succ]
              exact hv
        · rw [hloop]
          simp only [List.take_succ_cons, List.map_cons, List.sum_cons]
          rw [hsum]
      · have hloop : orderLoop chunk (p :: rest) i lm = ([], 0, lm) := by
          rw [orderLoop, if_neg (not_not_intro h1), if_pos h2]
        refine ⟨0, by simp, by rw [hloop]; rfl, by simp, ?_, by rw [hloop]; simp⟩
        right
        exact ⟨by simp, Or.inr h2⟩
    · have hloop : orderLoop chunk (p :: rest) i lm = ([], 0, lm) := by
        rw [orderLoop, if_pos h1]
      refine ⟨0, by simp, by rw [hloop]; rfl, by simp, ?_, by rw [hloop]; simp⟩
      right
      exact ⟨by simp, Or.inl h1⟩

/-- C1 (amended): on a non-empty candidate part set sorted strictly by
part number (as `Resume` produces it — `OrderParts` does not itself sort,
see the counterexample), `OrderParts` returns exactly the maximal prefix
in which the i-th part (1-based) has part number i and size equal to the
size of the first part (part number 1 when any part is accepted); the
returned parts stay sorted, the returned total size is the sum of the
returned parts' sizes, and when part number 1 is absent the result is empty
with size 0. -/
theorem OrderParts_trusted_prefix (now : Int) (parts : List MPart) (hne : parts ≠ [])
    (hsort : parts.Chain' (fun a b => a.partNumber < b.partNumber)) :
    ∃ k, k ≤ parts.length ∧
      (OrderParts now parts).parts = parts.take k ∧
      ((OrderParts now parts).parts).Chain' (fun a b => a.partNumber < b.partNumber) ∧
      (∀ j, j < k → ∃ hjl : j < parts.length,
        (parts.get ⟨j, hjl⟩).partNumber = (j : Int) + 1 ∧
        (parts.get ⟨j, hjl⟩).size = (parts.head hne).size) ∧
      (k = parts.length ∨ ∃ hkl : k < parts.length,
        (parts.get ⟨k, hkl⟩).partNumber ≠ (k : Int) + 1 ∨
        (parts.get ⟨k, hkl⟩).size ≠ (parts.head hne).size) ∧
      (OrderParts now parts).size = (((OrderParts now parts).parts).map MPart.size).sum ∧
      ((∀ p ∈ parts, p.partNumber ≠ 1) →
        (OrderParts now parts).parts = [] ∧ (OrderParts now parts).size = 0) := by
  rcases parts with _ | ⟨p0, rest⟩
  · exact absurd rfl hne
  · obtain ⟨k, hkle, hps, haccept, hstop, hsum⟩ := orderLoop_spec p0.size (p0 :: rest) 0 now
    rcases hrec : orderLoop p0.size (p0 :: rest) 0 now with ⟨ps, sz, lmf⟩
    rw [hrec] at hps hsum
    simp only at hps hsum
    have hop : OrderParts now (p0 :: rest) = ⟨sz, lmf, ps⟩ := by
      rw [OrderParts]
      rw [hrec]
    refine ⟨k, hkle, ?_, ?_, ?_, ?_, ?_, ?_⟩
    · rw [hop, hps]
    · rw [hop]
      simp only
      rw [hps]
      exact hsort.take k
    · intro j hj
      obtain ⟨hjl, hpn, hsz⟩ := haccept j hj
      exact ⟨hjl, by simpa using hpn, hsz⟩
    · rcases hstop with hlen | ⟨hkl, hviol⟩
      · exact Or.inl hlen
      · refine Or.inr ⟨hkl, ?_⟩
        rcases hviol with hv | hv
        · exact Or.inl (by simpa using hv)
        · exact Or.inr hv
    · rw [hop, hps]
      exact hsum
    · intro habsent
      have hk0 : k = 0 := by
        by_contra hk
        obtain ⟨hjl, hpn, _⟩ := haccept 0 (Nat.pos_of_ne_zero hk)
        exact habsent ((p0 :: rest).get ⟨0, hjl⟩) (List.get_mem _ 0 hjl) (by simpa using hpn)
      constructor
      · rw [hop, hps, hk0]
        rfl
      · rw [hop]
        simp only
        rw [hsum, hk0]
        rfl

/-- C1 witness: the gap listing `partsC1` (parts 1, 2, 4 of size 5). -/
theorem OrderParts_trusted_prefix_witness :
    ∃ k, k ≤ partsC1.length ∧
      (OrderParts 100 partsC1).parts = partsC1.take k ∧
      ((OrderParts 100 partsC1).parts).Chain' (fun a b => a.partNumber < b.partNumber) ∧
      (∀ j, j < k → ∃ hjl : j < partsC1.length,
        (partsC1.get ⟨j, hjl⟩).partNumber = (j : Int) + 1 ∧
        (partsC1.get ⟨j, hjl⟩).size = (partsC1.head (by decide)).size) ∧
      (k = partsC1.length ∨ ∃ hkl : k < partsC1.length,
        (partsC1.get ⟨k, hkl⟩).partNumber ≠ (k : Int) + 1 ∨
        (partsC1.get ⟨k, hkl⟩).size ≠ (partsC1.head (by decide)).size) ∧
      (OrderParts 100 partsC1).size = (((OrderParts 100 partsC1).parts).map MPart.size).sum ∧
      ((∀ p ∈ partsC1, p.partNumber ≠ 1) →
        (OrderParts 100 partsC1).parts = [] ∧ (OrderParts 100 partsC1).size = 0) :=
  OrderParts_trusted_prefix 100 partsC1 (by decide)
    (by norm_num [partsC1, List.chain'_cons])

/-! ### `Resume`: conflict detection lemmas -/

/-- Lookup after inserting at the same key. -/
theorem lookupPM_insertPM_self : ∀ (m : List (Int × PartEntry)) (n : Int) (v : PartEntry),
    lookupPM (insertPM m n v) n = some v := by
  intro m n v
  induction m with
  | nil => simp [insertPM, lookupPM]
  | cons kv rest ih =>
    obtain ⟨k, w⟩ := kv
    by_cases hk : k = n
    · simp [insertPM, lookupPM, hk]
    · simp only [insertPM, if_neg hk]
      simp only [lookupPM, if_neg hk]
      exact ih

/-- Lookup after inserting at a different key. -/
theorem lookupPM_insertPM_ne : ∀ (m : List (Int × PartEntry)) (n n' : Int) (v : PartEntry),
    n' ≠ n → lookupPM (insertPM m n v) n' = lookupPM m n' := by
  intro m n n' v hne
  induction m with
  | nil =>
    simp only [insertPM, lookupPM]
    rw [if_neg (fun h => hne h.symm)]
  | cons kv rest ih =>
    obtain ⟨k, w⟩ := kv
    by_cases hk : k = n
    · subst hk
      simp only [insertPM, if_pos rfl, lookupPM]
      rw [if_neg (fun h => hne h.symm), if_neg (fun h => hne h.symm)]
    · simp only [insertPM, if_neg hk]
      by_cases hk' : k = n'
      · simp [lookupPM, hk']
      · simp only [lookupPM, if_neg hk']
        exact ih

/-- Keys after inserting at a key already present. -/
theorem keys_insertPM_present : ∀ (m : List (Int × PartEntry)) (n : Int) (v : PartEntry),
    lookupPM m n ≠ none → (insertPM m n v).map Prod.fst = m.map Prod.fst := by
  intro m n v h
  induction m with
  | nil => exact absurd rfl h
  | cons kv rest ih =>
    obtain ⟨k, w⟩ := kv
    by_cases hk : k = n
    · simp [insertPM, hk]
    · simp only [lookupPM, if_neg hk] at h
      simp only [insertPM, if_neg hk, List.map_cons]
      rw [ih h]

/-- Keys after inserting at a fresh key. -/
theorem keys_insertPM_new : ∀ (m : List (Int × PartEntry)) (n : Int) (v : PartEntry),
    lookupPM m n = none → (insertPM m n v).map Prod.fst = m.map Prod.fst ++ [n] := by
  intro m n v h
  induction m with
  | nil => simp [insertPM]
  | cons kv rest ih =>
    obtain ⟨k, w⟩ := kv
    by_cases hk : k = n
    · rw [lookupPM, if_pos hk] at h
      cases h
    · simp only [lookupPM, if_neg hk] at h
      simp only [insertPM, if_neg hk, List.map_cons, List.cons_append]
      rw [ih h]

/-- An absent lookup means the key is not among the map's keys. -/
theorem lookupPM_none_iff : ∀ (m : List (Int × PartEntry)) (n : Int),
    lookupPM m n = none ↔ n ∉ m.map Prod.fst := by
  intro m n
  induction m with
  | nil => simp [lookupPM]
  | cons kv rest ih =>
    obtain ⟨k, w⟩ := kv
    by_cases hk : k = n
    · simp [lookupPM, hk]
    · simp only [lookupPM, if_neg hk, List.map_cons, List.mem_cons]
      rw [ih]
      constructor
      · intro hn hor
        rcases hor with hor | hor
        · exact hk hor.symm
        · exact hn hor
      · intro hn hmem
        exact hn (Or.inr hmem)

/-- A successful lookup names a pair of the map. -/
theorem mem_of_lookupPM : ∀ (m : List (Int × PartEntry)) (n : Int) (v : PartEntry),
    lookupPM m n = some v → (n, v) ∈ m := by
  intro m n v h
  induction m with
  | nil => cases h
  | cons kv rest ih =>
    obtain ⟨k, w⟩ := kv
    by_cases hk : k = n
    · rw [lookupPM, if_pos hk] at h
      injection h with h
      subst hk h
      exact List.mem_cons_self _ _
    · rw [lookupPM, if_neg hk] at h
      exact List.mem_cons_of_mem _ (ih h)

/-- With distinct keys, membership determines the lookup. -/
theorem lookupPM_of_mem_nodup : ∀ (m : List (Int × PartEntry)),
    (m.map Prod.fst).Nodup → ∀ (n : Int) (v : PartEntry),
    (n, v) ∈ m → lookupPM m n = some v := by
  intro m hnd n v hmem
  induction m with
  | nil => cases hmem
  | cons kv rest ih =>
    obtain ⟨k, w⟩ := kv
    simp only [List.map_cons, List.nodup_cons] at hnd
    rcases List.mem_cons.mp hmem with hmem' | hmem'
    · injection hmem' with h1 h2
      subst h1
      rw [lookupPM, if_pos rfl, h2]
    · by_cases hk : k = n
      · exfalso
        apply hnd.1
        subst hk
        exact List.mem_map_of_mem Prod.fst hmem'
      · rw [lookupPM, if_neg hk]
        exact ih hnd.2 hmem'

/-- Extending the processed prefix with a part of a different number keeps
`InvAt` when the lookup at that number is unchanged. -/
theorem InvAt_extend_ne {processed : List MPart} {part : MPart}
    {m m' : List (Int × PartEntry)} {n : Int} (hne : n ≠ part.partNumber)
    (hsame : lookupPM m' n = lookupPM m n) (h : InvAt processed m n) :
    InvAt (processed ++ [part]) m' n := by
  obtain ⟨h1, h2, h3⟩ := h
  refine ⟨?_, ?_, ?_⟩
  · intro hnone p hp
    rcases List.mem_append.mp hp with hp' | hp'
    · exact h1 (hsame ▸ hnone) p hp'
    · have hpp : p = part := by simpa using hp'
      subst hpp
      exact fun hc => hne hc.symm
  · intro p hl
    rw [hsame] at hl
    obtain ⟨hmem, hpn, hagree⟩ := h2 p hl
    refine ⟨List.mem_append_left _ hmem, hpn, ?_⟩
    intro q hq hqn
    rcases List.mem_append.mp hq with hq' | hq'
    · exact hagree q hq' hqn
    · have hqq : q = part := by simpa using hq'
      subst hqq
      exact absurd hqn fun hc => hne hc.symm
  · intro hl
    rw [hsame] at hl
    obtain ⟨p, hp, hpn, q, hq, hqn, hdiv⟩ := h3 hl
    exact ⟨p, List.mem_append_left _ hp, hpn, q, List.mem_append_left _ hq, hqn, hdiv⟩

/-- One step of the dedup loop preserves the invariant. -/
theorem resumeStep_inv {processed : List MPart} {m : List (Int × PartEntry)} (part : MPart)
    (h : MapInv processed m) : MapInv (processed ++ [part]) (resumeStep m part) := by
  obtain ⟨hnd, hat⟩ := h
  cases hl : lookupPM m part.partNumber with
  | none =>
    -- fresh part number: insert the real record
    have hstep : resumeStep m part = insertPM m part.partNumber (.real part) := by
      rw [resumeStep, hl]
    rw [hstep]
    constructor
    · rw [keys_insertPM_new m _ _ hl]
      refine List.Nodup.append hnd (List.nodup_singleton _) ?_
      intro a ha hb
      have : a = part.partNumber := by simpa using hb
      subst this
      exact (lookupPM_none_iff m _).mp hl ha
    · intro n
      by_cases hn : n = part.partNumber
      · subst hn
        refine ⟨?_, ?_, ?_⟩
        · intro hnone
          rw [lookupPM_insertPM_self] at hnone
          cases hnone
        · intro p hp
          rw [lookupPM_insertPM_self] at hp
          injection hp with hp
          have hpp : part = p := by
            cases hp
            rfl
          subst hpp
          refine ⟨List.mem_append_right _ (List.mem_singleton_self _), rfl, ?_⟩
          intro q hq hqn
          rcases List.mem_append.mp hq with hq' | hq'
          · exact absurd hqn ((hat _).1 hl q hq')
          · have hqq : q = part := by simpa using hq'
            subst hqq
            exact ⟨rfl, rfl⟩
        · intro hig
          rw [lookupPM_insertPM_self] at hig
          cases hig
      · exact InvAt_extend_ne hn (lookupPM_insertPM_ne m _ n _ hn) (hat n)
  | some e =>
    cases e with
    | ignore =>
      -- already conflicted: the map is unchanged
      have hstep : resumeStep m part = m := by
        rw [resumeStep, hl]
      rw [hstep]
      refine ⟨hnd, fun n => ?_⟩
      by_cases hn : n = part.partNumber
      · subst hn
        refine ⟨?_, ?_, ?_⟩
        · intro hnone
          rw [hl] at hnone
          cases hnone
        · intro p hp
          rw [hl] at hp
          injection hp with hp
          cases hp
        · intro _
          obtain ⟨p, hp, hpn, q, hq, hqn, hdiv⟩ := (hat _).2.2 hl
          exact ⟨p, List.mem_append_left _ hp, hpn, q, List.mem_append_left _ hq, hqn, hdiv⟩
      · exact InvAt_extend_ne hn rfl (hat n)
    | real existing =>
      by_cases hdiv : part.size ≠ existing.size ∨ part.etag ≠ existing.etag
      · -- divergent re-listing: overwrite with the ignore marker
        have hstep : resumeStep m part = insertPM m part.partNumber .ignore := by
          rw [resumeStep, hl]
          dsimp only
          rw [if_pos hdiv]
        rw [hstep]
        constructor
        · rw [keys_insertPM_present m _ _ (by rw [hl]; exact fun h => Option.noConfusion h)]
          exact hnd
        · intro n
          by_cases hn : n = part.partNumber
          · subst hn
            refine ⟨?_, ?_, ?_⟩
            · intro hnone
              rw [lookupPM_insertPM_self] at hnone
              cases hnone
            · intro p hp
              rw [lookupPM_insertPM_self] at hp
              injection hp with hp
              cases hp
            · intro _
              obtain ⟨hmem, hpn, _⟩ := (hat _).2.1 existing hl
              refine ⟨existing, List.mem_append_left _ hmem, hpn, part,
                List.mem_append_right _ (List.mem_singleton_self _), rfl, ?_⟩
              rcases hdiv with hv | hv
              · exact Or.inl fun hc => hv hc.symm
              · exact Or.inr fun hc => hv hc.symm
          · exact InvAt_extend_ne hn (lookupPM_insertPM_ne m _ n _ hn) (hat n)
      · -- agreeing re-listing: the map is unchanged
        have hagree2 : part.size = existing.size ∧ part.etag = existing.etag := by
          push_neg at hdiv
          exact hdiv
        have hstep : resumeStep m part = m := by
          rw [resumeStep, hl]
          dsimp only
          rw [if_neg hdiv]
        rw [hstep]
        refine ⟨hnd, fun n => ?_⟩
        by_cases hn : n = part.partNumber
        · subst hn
          refine ⟨?_, ?_, ?_⟩
          · intro hnone
            rw [hl] at hnone
            cases hnone
          · intro p hp
            rw [hl] at hp
            injection hp with hp
            have hpe : p = existing := by
              cases hp
              rfl
            subst hpe
            obtain ⟨hmem, hpn, hagree⟩ := (hat _).2.1 p hl
            refine ⟨List.mem_append_left _ hmem, hpn, ?_⟩
            intro q hq hqn
            rcases List.mem_append.mp hq with hq' | hq'
            · exact hagree q hq' hqn
            · have hqq : q = part := by simpa using hq'
              subst hqq
              exact hagree2
          · intro hig
            rw [hl] at hig
            injection hig with hig
            cases hig
        · exact InvAt_extend_ne hn rfl (hat n)

/-- Folding the dedup step over a listing builds the invariant. -/
theorem foldl_resumeStep_inv : ∀ (l processed : List MPart) (m : List (Int × PartEntry)),
    MapInv processed m → MapInv (processed ++ l) (l.foldl resumeStep m) := by
  intro l
  induction l with
  | nil =>
    intro processed m h
    simpa using h
  | cons a restl ih =>
    intro processed m h
    have h' := resumeStep_inv a h
    have := ih (processed ++ [a]) (resumeStep m a) h'
    simpa [List.append_assoc] using this

/-- The invariant holds of the empty map and empty prefix. -/
theorem mapInv_nil : MapInv [] [] := by
  refine ⟨List.nodup_nil, fun n => ⟨?_, ?_, ?_⟩⟩
  · intro _ p hp
    cases hp
  · intro p hp
    cases hp
  · intro hp
    cases hp

/-- Membership in the extracted real entries. -/
theorem mem_realEntries {m : List (Int × PartEntry)} {p : MPart} :
    p ∈ realEntries m ↔ ∃ k : Int, (k, PartEntry.real p) ∈ m := by
  constructor
  · intro h
    obtain ⟨kv, hkv, heq⟩ := List.mem_filterMap.mp h
    obtain ⟨k, e⟩ := kv
    cases e with
    | real q =>
      simp only at heq
      injection heq with heq
      subst heq
      exact ⟨k, hkv⟩
    | ignore =>
      simp only at heq
      cases heq
  · rintro ⟨k, hk⟩
    exact List.mem_filterMap.mpr ⟨(k, .real p), hk, rfl⟩

/-- With distinct keys numbering the real entries, the extracted part
numbers are distinct. -/
theorem nodup_realEntries_pn : ∀ (m : List (Int × PartEntry)),
    (m.map Prod.fst).Nodup →
    (∀ k p, (k, PartEntry.real p) ∈ m → p.partNumber = k) →
    ((realEntries m).map MPart.partNumber).Nodup := by
  intro m
  induction m with
  | nil =>
    intro _ _
    simp [realEntries]
  | cons kv rest ih =>
    intro hnd hpn
    obtain ⟨k, e⟩ := kv
    simp only [List.map_cons, List.nodup_cons] at hnd
    cases e with
    | ignore =>
      have : realEntries ((k, PartEntry.ignore) :: rest) = realEntries rest := by
        simp [realEntries]
      rw [this]
      exact ih hnd.2 fun k' p' h => hpn k' p' (List.mem_cons_of_mem _ h)
    | real p =>
      have : realEntries ((k, PartEntry.real p) :: rest) = p :: realEntries rest := by
        simp [realEntries]
      rw [this, List.map_cons, List.nodup_cons]
      constructor
      · intro hmem
        obtain ⟨q, hq, hqpn⟩ := List.mem_map.mp hmem
        obtain ⟨k', hk'⟩ := mem_realEntries.mp hq
        have hq1 : q.partNumber = k' := hpn k' q (List.mem_cons_of_mem _ hk')
        have hp1 : p.partNumber = k := hpn k p (List.mem_cons_self _ _)
        apply hnd.1
        rw [← hp1, ← hqpn, hq1]
        exact List.mem_map_of_mem Prod.fst hk'
      · exact ih hnd.2 fun k' p' h => hpn k' p' (List.mem_cons_of_mem _ h)

/-- C6: after `Resume` processes the listed parts, the surviving set is
sorted by part number ascending with at most one part per number, and a
part number survives exactly when it was listed and every pair of listings
for it agrees in size and etag — a number listed with two divergent records
is excluded entirely. -/
theorem resume_conflict_exclusion (listed : List MPart) :
    List.Sorted partLE (Resume listed) ∧
    ((Resume listed).map MPart.partNumber).Nodup ∧
    ∀ n : Int,
      (∃ p ∈ Resume listed, p.partNumber = n) ↔
        ((∃ p ∈ listed, p.partNumber = n) ∧
         ∀ p ∈ listed, p.partNumber = n → ∀ q ∈ listed, q.partNumber = n →
           p.size = q.size ∧ p.etag = q.etag) := by
  have hinv : MapInv listed (listed.foldl resumeStep []) := by
    have := foldl_resumeStep_inv listed [] [] mapInv_nil
    simpa using this
  obtain ⟨hnd, hat⟩ := hinv
  have hres : Resume listed
      = List.insertionSort partLE (realEntries (listed.foldl resumeStep [])) := rfl
  have hperm : List.Perm
      (List.insertionSort partLE (realEntries (listed.foldl resumeStep [])))
      (realEntries (listed.foldl resumeStep [])) :=
    List.perm_insertionSort partLE _
  have hpnk : ∀ k p, (k, PartEntry.real p) ∈ listed.foldl resumeStep []
      → p.partNumber = k := by
    intro k p hmem
    exact ((hat k).2.1 p (lookupPM_of_mem_nodup _ hnd k _ hmem)).2.1
  refine ⟨?_, ?_, ?_⟩
  · rw [hres]
    exact List.sorted_insertionSort partLE _
  · rw [hres]
    have := nodup_realEntries_pn _ hnd hpnk
    exact ((hperm.map MPart.partNumber).nodup_iff).mpr this
  · intro n
    constructor
    · rintro ⟨p, hp, rfl⟩
      rw [hres] at hp
      have hp' : p ∈ realEntries (listed.foldl resumeStep []) := hperm.mem_iff.mp hp
      obtain ⟨k, hk⟩ := mem_realEntries.mp hp'
      have hlook := lookupPM_of_mem_nodup _ hnd k _ hk
      obtain ⟨hmem, hpn, hagree⟩ := (hat k).2.1 p hlook
      subst hpn
      refine ⟨⟨p, hmem, rfl⟩, ?_⟩
      intro a ha han b hb hbn
      obtain ⟨ha1, ha2⟩ := hagree a ha han
      obtain ⟨hb1, hb2⟩ := hagree b hb hbn
      exact ⟨ha1.trans hb1.symm, ha2.trans hb2.symm⟩
    · rintro ⟨⟨p0, hp0, hp0n⟩, hall⟩
      cases hlook : lookupPM (listed.foldl resumeStep []) n with
      | none =>
        exact absurd hp0n ((hat n).1 hlook p0 hp0)
      | some e =>
        cases e with
        | real p =>
          refine ⟨p, ?_, ((hat n).2.1 p hlook).2.1⟩
          rw [hres]
          exact hperm.mem_iff.mpr (mem_realEntries.mpr ⟨n, mem_of_lookupPM _ n _ hlook⟩)
        | ignore =>
          obtain ⟨a, ha, han, b, hb, hbn, hdiv⟩ := (hat n).2.2 hlook
          obtain ⟨h1, h2⟩ := hall a ha han b hb hbn
          rcases hdiv with hv | hv
          · exact absurd h1 hv
          · exact absurd h2 hv

/-! ### The writer's chunk-counting invariant (C2) -/

/-- `countUploads` distributes over append. -/
theorem countUploads_append (a b : List WCall) :
    countUploads (a ++ b) = countUploads a + countUploads b := by
  simp [countUploads, List.filter_append]

/-- Appending the next numbered part preserves the numbering invariant. -/
theorem partsNumbered_snoc {ps : List WPart} (h : partsNumbered ps) (t : String) (sz : Int) :
    partsNumbered (ps ++ [⟨t, (ps.length : Int) + 1, sz⟩]) := by
  intro i hi
  rw [List.length_append, List.length_singleton] at hi
  by_cases hlt : i < ps.length
  · rw [List.get_append i hlt]
    exact h i hlt
  · have hieq : i = ps.length := by omega
    subst hieq
    simp

/-- A full flush on an all-accepting store: consumes exactly one chunk,
uploads part `len(parts)+1`, appends the part record and advances `size`. -/
theorem flush_ok_full (st : S3Store) (w : WriterState) (t : String)
    (hlen : w.chunkSize ≤ w.buf.length) (hC : 0 < w.chunkSize)
    (hup : st.uploadPart ((w.parts.length : Int) + 1) (w.buf.take w.chunkSize) = .ok t) :
    writer.flush st w =
      ({ w with
          buf := w.buf.drop w.chunkSize,
          parts := w.parts ++ [⟨t, (w.parts.length : Int) + 1, (w.chunkSize : Int)⟩],
          size := w.size + (w.chunkSize : Int) },
        none, [.uploadPart ((w.parts.length : Int) + 1) (w.buf.take w.chunkSize)]) := by
  have hne : ¬(w.buf.isEmpty = true) := by
    simp only [List.isEmpty_iff]
    intro h
    rw [h] at hlen
    simp at hlen
    omega
  unfold writer.flush
  rw [if_neg hne]
  dsimp only
  rw [hup]
  have htake : (w.buf.take w.chunkSize).length = w.chunkSize := by
    rw [List.length_take]
    omega
  rw [htake]

/-- The flush loop on an all-accepting store drains the buffer to its
remainder modulo the chunk size, uploading one full part per chunk. -/
theorem flushLoop_ok (st : S3Store)
    (hok : ∀ pn b, ∃ t, st.uploadPart pn b = .ok t) :
    ∀ (fuel : Nat) (w : WriterState), 0 < w.chunkSize → w.buf.length < fuel →
    ∃ w' cs,
      writer.flushLoop st fuel w = (w', none, cs) ∧
      w'.chunkSize = w.chunkSize ∧
      w'.closed = w.closed ∧ w'.committed = w.committed ∧ w'.cancelled = w.cancelled ∧
      w'.buf.length = w.buf.length % w.chunkSize ∧
      w'.parts.length = w.parts.length + w.buf.length / w.chunkSize ∧
      w'.size = w.size + ((w.buf.length / w.chunkSize * w.chunkSize : Nat) : Int) ∧
      (partsNumbered w.parts → partsNumbered w'.parts) ∧
      ((∀ q ∈ w.parts, q.size = (w.chunkSize : Int)) →
        ∀ q ∈ w'.parts, q.size = (w.chunkSize : Int)) ∧
      countUploads cs = w.buf.length / w.chunkSize := by
  intro fuel
  induction fuel with
  | zero =>
    intro w _ hfuel
    omega
  | succ fuel ih =>
    intro w hC hfuel
    by_cases hcond : w.chunkSize ≤ w.buf.length ∧ 0 < w.chunkSize
    · obtain ⟨t, hup⟩ := hok ((w.parts.length : Int) + 1) (w.buf.take w.chunkSize)
      have hflush := flush_ok_full st w t hcond.1 hC hup
      obtain ⟨w', cs', hloop, hchunk, hcl, hcm, hcn, hbuf, hparts, hsize, hnum, hsz, hcount⟩ :=
        ih ({ w with
            buf := w.buf.drop w.chunkSize,
            parts := w.parts ++ [⟨t, (w.parts.length : Int) + 1, (w.chunkSize : Int)⟩],
            size := w.size + (w.chunkSize : Int) })
          (by simpa using hC)
          (by simp only [List.length_drop]; omega)
      simp only [List.length_drop, List.length_append,
        List.length_singleton] at hchunk hbuf hparts hsize
      have hdiv : w.buf.length / w.chunkSize
          = (w.buf.length - w.chunkSize) / w.chunkSize + 1 :=
        Nat.div_eq_sub_div hC hcond.1
      have hmod : (w.buf.length - w.chunkSize) % w.chunkSize
          = w.buf.length % w.chunkSize := by
        conv_rhs => rw [← Nat.sub_add_cancel hcond.1]
        rw [Nat.add_mod_right]
      refine ⟨w', [.uploadPart ((w.parts.length : Int) + 1) (w.buf.take w.chunkSize)] ++ cs',
        ?_, ?_, ?_, ?_, ?_, ?_, ?_, ?_, ?_, ?_, ?_⟩
      · rw [writer.flushLoop, if_pos hcond, hflush]
        dsimp only
        rw [hloop]
      · simpa using hchunk
      · simpa using hcl
      · simpa using hcm
      · simpa using hcn
      · rw [hbuf, hmod]
      · rw [hparts, hdiv]
        omega
      · rw [hsize, hdiv]
        push_cast
        ring
      · intro hn
        exact hnum (partsNumbered_snoc hn t _)
      · intro hs q hq
        refine hsz ?_ q hq
        intro q' hq'
        rcases List.mem_append.mp hq' with hq'' | hq''
        · exact hs q' hq''
        · have : q' = ⟨t, (w.parts.length : Int) + 1, (w.chunkSize : Int)⟩ := by
            simpa using hq''
          rw [this]
      · rw [countUploads_append, hcount, hdiv]
        simp [countUploads]
        omega
    · have hlt : w.buf.length < w.chunkSize := by
        rcases not_and_or.mp hcond with h | h
        · omega
        · omega
      refine ⟨w, [], ?_, rfl, rfl, rfl, rfl, ?_, ?_, ?_, fun h => h, fun h => h, ?_⟩
      · rw [writer.flushLoop, if_neg hcond]
      · rw [Nat.mod_eq_of_lt hlt]
      · rw [Nat.div_eq_of_lt hlt]
        omega
      · rw [Nat.div_eq_of_lt hlt]
        simp
      · rw [Nat.div_eq_of_lt hlt]
        simp [countUploads]

/-- One `Write` on an all-accepting store: appends to the buffer, then
flushes one full chunk per `chunkSize` bytes available, each upload taking
the next part number. -/
theorem Write_ok (st : S3Store) (hok : ∀ pn b, ∃ t, st.uploadPart pn b = .ok t)
    (w : WriterState) (p : List Nat) (hC : 0 < w.chunkSize)
    (hfl : w.closed = false ∧ w.committed = false ∧ w.cancelled = false) :
    ∃ w' cs,
      writer.Write st w p = (w', .ok p.length, cs) ∧
      w'.chunkSize = w.chunkSize ∧
      w'.closed = false ∧ w'.committed = false ∧ w'.cancelled = false ∧
      w'.buf.length = (w.buf.length + p.length) % w.chunkSize ∧
      w'.parts.length = w.parts.length + (w.buf.length + p.length) / w.chunkSize ∧
      w'.size = w.size
        + (((w.buf.length + p.length) / w.chunkSize * w.chunkSize : Nat) : Int) ∧
      (partsNumbered w.parts → partsNumbered w'.parts) ∧
      ((∀ q ∈ w.parts, q.size = (w.chunkSize : Int)) →
        ∀ q ∈ w'.parts, q.size = (w.chunkSize : Int)) ∧
      countUploads cs = (w.buf.length + p.length) / w.chunkSize := by
  have hdone : writer.done w = none := by
    unfold writer.done
    rw [hfl.1, hfl.2.1, hfl.2.2]
    simp
  obtain ⟨w', cs, hloop, hchunk, hcl, hcm, hcn, hbuf, hparts, hsize, hnum, hsz, hcount⟩ :=
    flushLoop_ok st hok ((w.buf ++ p).length + 1) { w with buf := w.buf ++ p }
      (by simpa using hC) (by simp)
  simp only [List.length_append] at hloop hchunk hcl hcm hcn hbuf hparts hsize hnum hsz hcount
  refine ⟨w', cs, ?_, hchunk, by rw [hcl, hfl.1], by rw [hcm, hfl.2.1], by rw [hcn, hfl.2.2],
    hbuf, hparts, hsize, hnum, hsz, hcount⟩
  unfold writer.Write
  rw [hdone]
  dsimp only
  simp only [List.length_append]
  rw [hloop]

/-- Applying a sequence of writes on an all-accepting store, starting from
any state holding `n % C` buffered bytes and `n / C` uploaded parts,
reaches the state for `n + totalLen ws` bytes, with every write
succeeding. -/
theorem applyWrites_ok (st : S3Store) (hok : ∀ pn b, ∃ t, st.uploadPart pn b = .ok t)
    (C : Nat) (hC : 0 < C) :
    ∀ (ws : List (List Nat)) (n : Nat) (w : WriterState),
    w.chunkSize = C → w.closed = false → w.committed = false → w.cancelled = false →
    w.buf.length = n % C → w.parts.length = n / C →
    w.size = ((n / C * C : Nat) : Int) →
    partsNumbered w.parts → (∀ q ∈ w.parts, q.size = (C : Int)) →
    ((applyWrites st w ws).chunkSize = C ∧
     (applyWrites st w ws).closed = false ∧
     (applyWrites st w ws).committed = false ∧
     (applyWrites st w ws).cancelled = false ∧
     (applyWrites st w ws).buf.length = (n + totalLen ws) % C ∧
     (applyWrites st w ws).parts.length = (n + totalLen ws) / C ∧
     (applyWrites st w ws).size = (((n + totalLen ws) / C * C : Nat) : Int) ∧
     partsNumbered (applyWrites st w ws).parts ∧
     (∀ q ∈ (applyWrites st w ws).parts, q.size = (C : Int))) ∧
    allWritesOk st w ws := by
  have key : ∀ a x : Nat, a / C + (a % C + x) / C = (a + x) / C := by
    intro a x
    conv_rhs => rw [← Nat.div_add_mod a C]
    rw [Nat.add_assoc, Nat.mul_add_div hC]
  intro ws
  induction ws with
  | nil =>
    intro n w h1 h2 h3 h4 h5 h6 h7 h8 h9
    refine ⟨⟨h1, h2, h3, h4, ?_, ?_, ?_, h8, h9⟩, trivial⟩
    · simpa [applyWrites, totalLen] using h5
    · simpa [applyWrites, totalLen] using h6
    · simpa [applyWrites, totalLen] using h7
  | cons p rest ih =>
    intro n w h1 h2 h3 h4 h5 h6 h7 h8 h9
    obtain ⟨w', cs, hw, hchunk, hcl, hcm, hcn, hbuf, hparts, hsize, hnum, hsz, hcount⟩ :=
      Write_ok st hok w p (h1 ▸ hC) ⟨h2, h3, h4⟩
    have happ : applyWrites st w (p :: rest) = applyWrites st w' rest := by
      rw [applyWrites, hw]
    have hbuf' : w'.buf.length = (n + p.length) % C := by
      rw [hbuf, h5, h1, Nat.mod_add_mod]
    have hparts' : w'.parts.length = (n + p.length) / C := by
      rw [hparts, h5, h6, h1, key]
    have hsize' : w'.size = (((n + p.length) / C * C : Nat) : Int) := by
      rw [hsize, h5, h7, h1]
      have : (n + p.length) / C * C = n / C * C + (n % C + p.length) / C * C := by
        rw [← key n p.length, Nat.add_mul]
      rw [this]
      push_cast
      ring
    have hrest := ih (n + p.length) w' (hchunk.trans h1) hcl hcm hcn hbuf' hparts' hsize'
      (hnum h8) (by rw [h1] at hsz; exact hsz h9)
    rw [happ]
    have htl : n + totalLen (p :: rest) = n + p.length + totalLen rest := by
      simp [totalLen]
      omega
    have hw1 : (writer.Write st w p).1 = w' := by rw [hw]
    refine ⟨?_, ?_⟩
    · rw [htl]
      exact hrest.1
    · exact ⟨⟨p.length, by rw [hw]⟩, by rw [hw1]; exact hrest.2⟩

/-- `Commit`'s store calls on an all-accepting store: exactly one more
upload — of all currently buffered bytes, as part `len(parts)+1` — when the
buffer is non-empty, and none otherwise. -/
theorem Commit_upload_count (st : S3Store) (hok : ∀ pn b, ∃ t, st.uploadPart pn b = .ok t)
    (w : WriterState)
    (hfl : w.closed = false ∧ w.committed = false ∧ w.cancelled = false)
    (hlen : w.buf.length ≤ w.chunkSize) :
    countUploads (writer.Commit st w).2.2 = (if w.buf.length = 0 then 0 else 1) ∧
    (w.buf ≠ [] → ∃ rest, (writer.Commit st w).2.2
      = .uploadPart ((w.parts.length : Int) + 1) w.buf :: rest ∧ countUploads rest = 0) := by
  have hdone : writer.done w = none := by
    unfold writer.done
    rw [hfl.1, hfl.2.1, hfl.2.2]
    simp
  by_cases hbuf : w.buf = []
  · have hfe : writer.flush st w = (w, none, []) := by
      unfold writer.flush
      rw [if_pos (by simp [hbuf])]
    unfold writer.Commit
    rw [hdone, hfe]
    dsimp only
    constructor
    · rw [show (if w.buf.length = 0 then (0 : Nat) else 1) = 0 from if_pos (by simp [hbuf])]
      split
      · simp [countUploads]
      · split <;> simp [countUploads]
    · intro h
      exact absurd hbuf h
  · have htake : w.buf.take w.chunkSize = w.buf := List.take_of_length_le hlen
    obtain ⟨t, hup⟩ := hok ((w.parts.length : Int) + 1) w.buf
    have hfe : writer.flush st w =
        ({ w with
            buf := w.buf.drop w.chunkSize,
            parts := w.parts ++ [⟨t, (w.parts.length : Int) + 1, (w.buf.length : Int)⟩],
            size := w.size + (w.buf.length : Int) },
          none, [.uploadPart ((w.parts.length : Int) + 1) w.buf]) := by
      unfold writer.flush
      rw [if_neg (by simp [List.isEmpty_iff, hbuf])]
      dsimp only
      rw [htake, hup]
    unfold writer.Commit
    rw [hdone, hfe]
    dsimp only
    rw [if_neg (by simp)]
    rw [show (if w.buf.length = 0 then (0 : Nat) else 1) = 1 from
      if_neg (by simp [List.length_eq_zero, hbuf])]
    constructor
    · split <;> simp [countUploads]
    · intro _
      split
      · exact ⟨_, rfl, by simp [countUploads]⟩
      · exact ⟨_, rfl, by simp [countUploads]⟩

/-- C2: for every sequence of `Write` calls on a fresh writer with chunk
size `C > 0` totaling `N` bytes, against a store that accepts every upload:
every write succeeds; before `Commit` exactly `N / C` parts have been
uploaded, numbered 1.. in order and each of exactly `C` bytes, `N % C`
bytes remain buffered, and the acknowledged size is `(N / C) * C`; `Commit`
then uploads exactly one more part — the buffered remainder, under the next
part number — when `N % C ≠ 0`, and uploads nothing when `N % C = 0`. -/
theorem write_commit_part_counts (st : S3Store)
    (hok : ∀ pn b, ∃ t, st.uploadPart pn b = .ok t)
    (C : Nat) (hC : 0 < C) (ws : List (List Nat)) :
    allWritesOk st (freshWriter C) ws ∧
    (applyWrites st (freshWriter C) ws).parts.length = totalLen ws / C ∧
    (applyWrites st (freshWriter C) ws).buf.length = totalLen ws % C ∧
    partsNumbered (applyWrites st (freshWriter C) ws).parts ∧
    (∀ q ∈ (applyWrites st (freshWriter C) ws).parts, q.size = (C : Int)) ∧
    (applyWrites st (freshWriter C) ws).size = ((totalLen ws / C * C : Nat) : Int) ∧
    countUploads (writer.Commit st (applyWrites st (freshWriter C) ws)).2.2
      = (if totalLen ws % C = 0 then 0 else 1) ∧
    (totalLen ws % C ≠ 0 → ∃ rest,
      (writer.Commit st (applyWrites st (freshWriter C) ws)).2.2
        = .uploadPart (((totalLen ws / C : Nat) : Int) + 1)
            (applyWrites st (freshWriter C) ws).buf :: rest ∧
      countUploads rest = 0) := by
  obtain ⟨⟨hchunk, hcl, hcm, hcn, hbuf, hparts, hsize, hnum, hsz⟩, hwok⟩ :=
    applyWrites_ok st hok C hC ws 0 (freshWriter C) rfl rfl rfl rfl
      (by simp [freshWriter]) (by simp [freshWriter]) (by simp [freshWriter])
      (by intro i hi; simp [freshWriter] at hi) (by intro q hq; simp [freshWriter] at hq)
  simp only [Nat.zero_add] at hbuf hparts hsize
  have hlen : (applyWrites st (freshWriter C) ws).buf.length
      ≤ (applyWrites st (freshWriter C) ws).chunkSize := by
    rw [hbuf, hchunk]
    exact le_of_lt (Nat.mod_lt _ hC)
  obtain ⟨hcount, hfinal⟩ :=
    Commit_upload_count st hok (applyWrites st (freshWriter C) ws) ⟨hcl, hcm, hcn⟩ hlen
  refine ⟨hwok, hparts, hbuf, hnum, hsz, hsize, ?_, ?_⟩
  · rw [hcount, hbuf]
  · intro hne
    have hbne : (applyWrites st (freshWriter C) ws).buf ≠ [] := by
      intro h
      rw [h] at hbuf
      exact hne (by simpa using hbuf.symm)
    obtain ⟨rest, hrest, hcr⟩ := hfinal hbne
    exact ⟨rest, by rw [hrest, hparts], hcr⟩

/-- C2 witness: a single three-byte write at chunk size two on the all-ok
store. -/
theorem write_commit_part_counts_witness :
    allWritesOk okStore (freshWriter 2) [[1, 2, 3]] ∧
    (applyWrites okStore (freshWriter 2) [[1, 2, 3]]).parts.length = totalLen [[1, 2, 3]] / 2 ∧
    (applyWrites okStore (freshWriter 2) [[1, 2, 3]]).buf.length = totalLen [[1, 2, 3]] % 2 ∧
    partsNumbered (applyWrites okStore (freshWriter 2) [[1, 2, 3]]).parts ∧
    (∀ q ∈ (applyWrites okStore (freshWriter 2) [[1, 2, 3]]).parts, q.size = ((2 : Nat) : Int)) ∧
    (applyWrites okStore (freshWriter 2) [[1, 2, 3]]).size
      = ((totalLen [[1, 2, 3]] / 2 * 2 : Nat) : Int) ∧
    countUploads (writer.Commit okStore (applyWrites okStore (freshWriter 2) [[1, 2, 3]])).2.2
      = (if totalLen [[1, 2, 3]] % 2 = 0 then 0 else 1) ∧
    (totalLen [[1, 2, 3]] % 2 ≠ 0 → ∃ rest,
      (writer.Commit okStore (applyWrites okStore (freshWriter 2) [[1, 2, 3]])).2.2
        = .uploadPart (((totalLen [[1, 2, 3]] / 2 : Nat) : Int) + 1)
            (applyWrites okStore (freshWriter 2) [[1, 2, 3]]).buf :: rest ∧
      countUploads rest = 0) :=
  write_commit_part_counts okStore (fun _ _ => ⟨"etag", rfl⟩) 2 (by decide) [[1, 2, 3]]

/-- C1 (counterexample): `OrderParts` does not sort its input.  On the
unsorted two-part set {part 2, part 1} (both of size 5) it returns the
empty zero-size result, not the trusted prefix [part 1, part 2] of total
size 10 that sorting first (as the claim states) would produce — which is
what it returns on the sorted permutation of the same set. -/
theorem OrderParts_no_sort_counterexample :
    OrderParts 0 [⟨2, 5, "b".data, 0⟩, ⟨1, 5, "a".data, 0⟩] = ⟨0, 0, []⟩ ∧
    OrderParts 0 [⟨1, 5, "a".data, 0⟩, ⟨2, 5, "b".data, 0⟩]
      = ⟨10, 0, [⟨1, 5, "a".data, 0⟩, ⟨2, 5, "b".data, 0⟩]⟩ := by
  exact ⟨by decide, by decide⟩

/-- C10 (counterexample): with a second skip signal the raw-prefix
suppression stops applying to the first skipped path: on `pagesC9`, after
the skip signal for `/c/f` the walk still passes `/c/f/w` — whose path
begins with the string `/c/f` — to the callback, because the remembered
skip path was overwritten by the skip at `/c/g`. -/
theorem walk_raw_suppression_counterexample :
    doWalk [] pagesC9 "/".data fC9 =
      some ([(⟨"/c".data, 0, 0, true⟩, .next), (⟨"/c/f".data, 0, 0, true⟩, .skipDir),
        (⟨"/c/g".data, 2, 0, false⟩, .skipDir), (⟨"/c/f/w".data, 0, 0, true⟩, .next)], none) ∧
    "/c/f".data <+: "/c/f/w".data := by
  exact ⟨by decide, by decide⟩
